import Mathlib

/-!
Shallow embedding of the associative-map engine of hash.c (the Ruby Hash
type of MacRuby) and of its environment-variable view, restricted to the
code path that the design document describes: the `!WITH_OBJC` branch,
backed by an st_table.  Ruby VALUE objects are modelled by the inductive
type RVal, the slot store st_table by an ordered list of slots whose key
component is an Option RVal (none models the Qundef tombstone left behind
by st_delete_safe), and raised Ruby exceptions by the RubyErr type.
Functions keep the names of the C functions they embed.
-/

/-- Ruby VALUE objects needed by the development: nil, integers, strings
and opaque proc objects (identified by a number). -/
inductive RVal where
  | vnil  : RVal
  | vint  : Int → RVal
  | vstr  : String → RVal
  | vproc : Nat → RVal
  deriving DecidableEq, Repr

open RVal

/-- Raised Ruby exceptions distinguished by this development.  frozenHash
is rb_error_frozen("hash"); rehashDuringIteration is the RuntimeError
"rehash during iteration"; rehashOccurredDuringIteration is the
RuntimeError "rehash occurred during iteration"; keyNotFound is KeyError;
nilAssignTypeError is the TypeError "cannot assign nil; use Hash#delete
instead"; badEnvName is the ArgumentError for malformed environment
names or values; wrongNumberOfArguments is ArgumentError. -/
inductive RubyErr where
  | frozenHash
  | rehashDuringIteration
  | rehashOccurredDuringIteration
  | keyNotFound
  | nilAssignTypeError
  | badEnvName
  | wrongNumberOfArguments
  deriving DecidableEq, Repr

/-- Modelled from the spec: the Slot Store (the st_table of st.c, which is
not part of this repository; section 6 of the design document specifies
it through insert, lookup, remove, size, clear and ordered enumeration).
Slots are kept in insertion order; a slot whose key component is none is
a Qundef tombstone left behind by st_delete_safe.  The gen field models
the identity of the underlying table object (the ntbl pointer of RHash):
it changes exactly when the table is structurally replaced by a fresh
one, never by in-place mutation. -/
structure StTable where
  entries : List (Option RVal × RVal)
  gen : Nat
  deriving DecidableEq, Repr

/-- Live (non-tombstoned) key/value pairs of a slot list, in slot order. -/
def liveList (l : List (Option RVal × RVal)) : List (RVal × RVal) :=
  l.filterMap (fun e => match e.1 with | some k => some (k, e.2) | none => none)

/-- Live key/value pairs of a table, in slot order. -/
def liveEntries (t : StTable) : List (RVal × RVal) :=
  liveList t.entries

/-- Live keys of a table, in slot order. -/
def liveKeys (t : StTable) : List RVal :=
  (liveEntries t).map Prod.fst

/-- Modelled from the spec: st_lookup, the value stored under a live key. -/
def st_lookup (t : StTable) (k : RVal) : Option RVal :=
  (t.entries.find? (fun e => e.1 == some k)).map Prod.snd

/-- Modelled from the spec: st_insert overwrites the value in place when
the key is already present and appends a fresh slot otherwise. -/
def st_insert (t : StTable) (k v : RVal) : StTable :=
  if t.entries.any (fun e => e.1 == some k) then
    { t with entries := t.entries.map (fun e => if e.1 == some k then (e.1, v) else e) }
  else
    { t with entries := t.entries ++ [(some k, v)] }

/-- Modelled from the spec: st_add_direct appends a fresh slot without
looking the key up (rb_hash_aset only calls it for keys known absent). -/
def st_add_direct (t : StTable) (k v : RVal) : StTable :=
  { t with entries := t.entries ++ [(some k, v)] }

/-- Modelled from the spec: st_delete physically removes the slot of the
given key (used only while no traversal is active). -/
def st_delete (t : StTable) (k : RVal) : Option RVal × StTable :=
  match t.entries.find? (fun e => e.1 == some k) with
  | some e => (some e.2, { t with entries := t.entries.eraseP (fun e2 => e2.1 == some k) })
  | none => (none, t)

/-- Replace the first slot holding the given live key by a tombstone,
keeping its position and the stored value slot. -/
def tombstoneFirst : List (Option RVal × RVal) → RVal → List (Option RVal × RVal)
  | [], _ => []
  | e :: rest, k => if e.1 == some k then (none, e.2) :: rest else e :: tombstoneFirst rest k

/-- Modelled from the spec: st_delete_safe marks the slot of the given key
with the Qundef tombstone instead of removing it, leaving the physical
slot array untouched (same object, same slot count). -/
def st_delete_safe (t : StTable) (k : RVal) : Option RVal × StTable :=
  match t.entries.find? (fun e => e.1 == some k) with
  | some e => (some e.2, { t with entries := tombstoneFirst t.entries k })
  | none => (none, t)

/-- Modelled from the spec: st_cleanup_safe compacts the table by dropping
every tombstoned slot. -/
def st_cleanup_safe (t : StTable) : StTable :=
  { t with entries := t.entries.filter (fun e => e.1.isSome) }

/-- Modelled from the spec: st_clear drops every slot. -/
def st_clear (t : StTable) : StTable :=
  { t with entries := [] }

/-- Whether a table holds no tombstoned slot. -/
def noTombB (t : StTable) : Bool :=
  t.entries.all (fun e => e.1.isSome)

/-- The RHash object of hash.c (non-ObjC branch): the st_table, the
traversal nesting depth iter_lev, the HASH_DELETED flag (true while
tombstones are pending compaction), the default value ifnone together
with the HASH_PROC_DEFAULT flag, the comparator selection (identcmp true
after compare_by_identity switched ntbl->type to identhash), and the
frozen flag of the object header. -/
structure RHash where
  tbl : StTable
  iter_lev : Nat
  deleted : Bool
  ifnone : RVal
  procDefault : Bool
  identcmp : Bool
  frozen : Bool
  deriving DecidableEq, Repr

/-- rb_hash_new: a fresh empty hash with nil default. -/
def rb_hash_new : RHash :=
  { tbl := { entries := [], gen := 0 }, iter_lev := 0, deleted := false,
    ifnone := vnil, procDefault := false, identcmp := false, frozen := false }

/-- rb_hash_initialize: with a block, the block becomes the proc default
(HASH_PROC_DEFAULT set) and positional arguments are rejected; otherwise
an optional single argument becomes the static default (nil if absent). -/
def rb_hash_init (blk : Option RVal) (arg : Option RVal) : Except RubyErr RHash :=
  match blk with
  | some p =>
    match arg with
    | some _ => .error .wrongNumberOfArguments
    | none => .ok { rb_hash_new with ifnone := p, procDefault := true }
  | none => .ok { rb_hash_new with ifnone := arg.getD vnil }

/-- Result of a lookup style operation: either a plain value, or the
invocation of the stored default proc with the hash itself and the key
(rb_funcall(ifnone, id_yield, 2, hash, key)) whose result is returned to
the caller. -/
inductive LookupOut where
  | val : RVal → LookupOut
  | callProc : RVal → RHash → RVal → LookupOut
  deriving DecidableEq, Repr

/-- rb_hash_default: with HASH_PROC_DEFAULT set, no key argument gives
nil and a key argument invokes the proc with (hash, key); otherwise the
stored ifnone value is returned. -/
def rb_hash_default (h : RHash) (arg : Option RVal) : LookupOut :=
  if h.procDefault then
    match arg with
    | none => .val vnil
    | some k => .callProc h.ifnone h k
  else .val h.ifnone

/-- rb_hash_aref: a hit returns the stored value; a miss returns
rb_funcall(hash, id_default, 1, key), that is the default policy applied
to the key. -/
def rb_hash_aref (h : RHash) (k : RVal) : LookupOut :=
  match st_lookup h.tbl k with
  | some v => .val v
  | none => rb_hash_default h (some k)

/-- rb_hash_fetch: a hit returns the stored value; on a miss a supplied
block wins over a supplied fallback value, and with neither a KeyError is
raised.  The default policy fields of the hash are never consulted. -/
def rb_hash_fetch (h : RHash) (k : RVal) (fallback : Option RVal)
    (blk : Option (RVal → RVal)) : Except RubyErr RVal :=
  match st_lookup h.tbl k with
  | some v => .ok v
  | none =>
    match blk with
    | some f => .ok (f k)
    | none =>
      match fallback with
      | some d => .ok d
      | none => .error .keyNotFound

/-- rb_hash_size: ntbl->num_entries, the number of live slots. -/
def rb_hash_size (h : RHash) : Nat :=
  (liveEntries h.tbl).length

/-- rb_hash_has_key. -/
def rb_hash_has_key (h : RHash) (k : RVal) : Bool :=
  (st_lookup h.tbl k).isSome

/-- rb_hash_set_default: stores the value as ifnone and unsets
HASH_PROC_DEFAULT, after the frozen check of rb_hash_modify. -/
def rb_hash_set_default (h : RHash) (v : RVal) : Except RubyErr RHash :=
  if h.frozen then .error .frozenHash
  else .ok { h with ifnone := v, procDefault := false }

/-- The ComputedOnMiss state of the Default-Value Policy is active. -/
def computedActive (h : RHash) : Bool := h.procDefault

/-- The StaticValue state of the Default-Value Policy is active. -/
def staticActive (h : RHash) : Bool := !h.procDefault && !(h.ifnone == vnil)

/-- The None state of the Default-Value Policy is active. -/
def noneActive (h : RHash) : Bool := !h.procDefault && (h.ifnone == vnil)

/-- TYPE(key) == T_STRING. -/
def rval_is_string : RVal → Bool
  | vstr _ => true
  | _ => false

/-- rb_hash_aset: after the frozen check of rb_hash_modify, an identhash
table, a non-string key or an already present key goes through st_insert,
and a fresh string key is appended directly (st_add_direct on the frozen
duplicate rb_str_new4(key), which is the same string value). -/
def rb_hash_aset (h : RHash) (k v : RVal) : Except RubyErr RHash :=
  if h.frozen then .error .frozenHash
  else if h.identcmp || !(rval_is_string k) || (st_lookup h.tbl k).isSome then
    .ok { h with tbl := st_insert h.tbl k v }
  else
    .ok { h with tbl := st_add_direct h.tbl k v }

/-- rb_hash_aset on a receiver known not to be frozen; never raises. -/
def asetD (h : RHash) (k v : RVal) : RHash :=
  match rb_hash_aset h k v with
  | .ok h2 => h2
  | .error _ => h

/-- rb_hash_delete_key: while a traversal is active (iter_lev > 0) the
slot is tombstoned through st_delete_safe and HASH_DELETED is set;
otherwise st_delete removes it physically.  A missing key returns Qundef
(none) and leaves the hash untouched. -/
def rb_hash_delete_key (h : RHash) (k : RVal) : RHash × Option RVal :=
  if h.iter_lev > 0 then
    match st_delete_safe h.tbl k with
    | (some v, t2) => ({ h with tbl := t2, deleted := true }, some v)
    | (none, _) => (h, none)
  else
    match st_delete h.tbl k with
    | (some v, t2) => ({ h with tbl := t2 }, some v)
    | (none, _) => (h, none)

/-- rb_hash_delete: frozen check, then rb_hash_delete_key; a miss yields
to the block when given and returns nil otherwise. -/
def rb_hash_delete (h : RHash) (k : RVal) (blk : Option (RVal → RVal)) :
    Except RubyErr (RHash × RVal) :=
  if h.frozen then .error .frozenHash
  else
    match rb_hash_delete_key h k with
    | (h2, some v) => .ok (h2, v)
    | (h2, none) =>
      match blk with
      | some f => .ok (h2, f k)
      | none => .ok (h2, vnil)

/-- Status values a traversal callback can return to st_foreach. -/
inductive StStatus where
  | stContinue | stStop | stDelete
  deriving DecidableEq, Repr

/-- Outcome of one callback invocation during a traversal: the (possibly
mutated) iterated hash, the callback-owned auxiliary state, and either a
returned status or a raised exception that aborts the traversal. -/
structure CbRes (A : Type) where
  h : RHash
  a : A
  out : Except RubyErr StStatus

/-- A traversal callback: key, value, the iterated hash and the auxiliary
state owned by the callback (for example the destination hash of merge or
the accumulating array of Hash#keys). -/
abbrev Callback (A : Type) := RVal → RVal → RHash → A → CbRes A

/-- Result of a whole traversal: final iterated hash, final auxiliary
state, and the raised exception when one aborted the traversal. -/
structure IterRes (A : Type) where
  h : RHash
  a : A
  err : Option RubyErr

/-- The traversal loop: st_foreach walking the slot array composed with
hash_foreach_iter.  A tombstoned slot is skipped (hash_foreach_iter
returns ST_CONTINUE on a Qundef key before invoking the callback).  For a
live slot the callback runs; hash_foreach_iter then compares the current
ntbl pointer against the one captured before the call (modelled by gen)
and raises the RuntimeError "rehash occurred during iteration" when the
table was structurally replaced; an ST_DELETE result tombstones the slot
through st_delete_safe and sets HASH_DELETED, ST_STOP ends the walk, and
ST_CONTINUE moves to the next slot.  The fuel argument bounds the number
of visited slots; rb_hash_foreach passes the slot count, which is exact
because no callback of this development appends slots mid-walk and
tombstoning never removes slots. -/
def foreachLoop {A : Type} (cb : Callback A) : Nat → RHash → A → Nat → IterRes A
  | 0, h, a, _ => ⟨h, a, none⟩
  | fuel+1, h, a, i =>
    if hi : i < h.tbl.entries.length then
      match (h.tbl.entries.get ⟨i, hi⟩).1 with
      | none => foreachLoop cb fuel h a (i+1)
      | some k =>
        let v := (h.tbl.entries.get ⟨i, hi⟩).2
        let g := h.tbl.gen
        let r := cb k v h a
        match r.out with
        | .error e => ⟨r.h, r.a, some e⟩
        | .ok st =>
          if r.h.tbl.gen ≠ g then ⟨r.h, r.a, some .rehashOccurredDuringIteration⟩
          else
            match st with
            | .stDelete =>
              foreachLoop cb fuel
                { r.h with tbl := (st_delete_safe r.h.tbl k).2, deleted := true } r.a (i+1)
            | .stStop => ⟨r.h, r.a, none⟩
            | .stContinue => foreachLoop cb fuel r.h r.a (i+1)
    else ⟨h, a, none⟩

/-- hash_foreach_ensure: decrement iter_lev; when the outermost traversal
just ended (iter_lev reaches 0) and HASH_DELETED is set, compact the
pending tombstones through st_cleanup_safe and clear the flag. -/
def hash_foreach_ensure (h : RHash) : RHash :=
  let h2 := { h with iter_lev := h.iter_lev - 1 }
  if h2.iter_lev = 0 ∧ h2.deleted then
    { h2 with tbl := st_cleanup_safe h2.tbl, deleted := false }
  else h2

/-- rb_hash_foreach: increment iter_lev, run the traversal loop, and run
hash_foreach_ensure through rb_ensure on every exit path, the aborting
ones included. -/
def rb_hash_foreach {A : Type} (cb : Callback A) (h : RHash) (a : A) : IterRes A :=
  let h1 := { h with iter_lev := h.iter_lev + 1 }
  let r := foreachLoop cb h1.tbl.entries.length h1 a 0
  ⟨hash_foreach_ensure r.h, r.a, r.err⟩

/-- keys_i: accumulate every visited key, in visit order. -/
def keys_i : Callback (List RVal) := fun k _ h a => ⟨h, a ++ [k], .ok .stContinue⟩

/-- rb_hash_keys: the visited keys of a full traversal. -/
def rb_hash_keys (h : RHash) : List RVal :=
  (rb_hash_foreach keys_i h []).a

/-- clear_i: request deletion of every visited slot. -/
def clear_i : Callback Unit := fun _ _ h a => ⟨h, a, .ok .stDelete⟩

/-- rb_hash_clear: frozen check; a non-empty table is cleared through the
safe traversal while a traversal is active and through st_clear
otherwise. -/
def rb_hash_clear (h : RHash) : Except RubyErr RHash :=
  if h.frozen then .error .frozenHash
  else if 0 < (liveEntries h.tbl).length then
    if h.iter_lev > 0 then
      let r := rb_hash_foreach clear_i h ()
      match r.err with
      | some e => .error e
      | none => .ok r.h
    else .ok { h with tbl := st_clear h.tbl }
  else .ok h

/-- delete_if_i: delete the visited slot through rb_hash_delete_key when
the predicate holds (the block result), then continue. -/
def delete_if_i (p : RVal → RVal → Bool) : Callback Unit := fun k v h a =>
  ⟨if p k v then (rb_hash_delete_key h k).1 else h, a, .ok .stContinue⟩

/-- rb_hash_delete_if: frozen check of rb_hash_modify, then the safe
traversal with delete_if_i. -/
def rb_hash_delete_if (p : RVal → RVal → Bool) (h : RHash) : RHash × Option RubyErr :=
  if h.frozen then (h, some .frozenHash)
  else
    let r := rb_hash_foreach (delete_if_i p) h ()
    (r.h, r.err)

/-- rb_hash_update_i: store each visited entry of the other hash into the
receiver (carried as the auxiliary state); rb_hash_aset raises on a
frozen receiver, aborting the traversal. -/
def rb_hash_update_i : Callback RHash := fun k v h2 h1 =>
  match rb_hash_aset h1 k v with
  | .ok h1b => ⟨h2, h1b, .ok .stContinue⟩
  | .error e => ⟨h2, h1, .error e⟩

/-- rb_hash_update_block_i: when the receiver already holds the key, the
stored entry (rb_hash_has_key then rb_hash_aref, which on a present key
is the stored value) and the incoming one are resolved through the
block, whose result is stored; otherwise the incoming value is stored. -/
def rb_hash_update_block_i (f : RVal → RVal → RVal → RVal) : Callback RHash := fun k v h2 h1 =>
  let v2 :=
    match st_lookup h1.tbl k with
    | some old => f k old v
    | none => v
  match rb_hash_aset h1 k v2 with
  | .ok h1b => ⟨h2, h1b, .ok .stContinue⟩
  | .error e => ⟨h2, h1, .error e⟩

/-- Result of rb_hash_update: the receiver, the iterated other hash (its
iter_lev restored by the traversal), and the raised exception if any. -/
structure UpdateRes where
  h1 : RHash
  h2 : RHash
  err : Option RubyErr
  deriving DecidableEq, Repr

/-- rb_hash_update (merge!): traverse the other hash with
rb_hash_update_block_i when a block is given and rb_hash_update_i
otherwise. -/
def rb_hash_update (f : Option (RVal → RVal → RVal → RVal)) (h1 h2 : RHash) : UpdateRes :=
  let cb :=
    match f with
    | some g => rb_hash_update_block_i g
    | none => rb_hash_update_i
  let r := rb_hash_foreach cb h2 h1
  ⟨r.a, r.h, r.err⟩

/-- rb_hash_dup: a fresh unfrozen hash object holding a copy of the slot
array; the copy is a new table object with no traversal in progress and
no default of its own. -/
def rb_hash_dup (h : RHash) : RHash :=
  { rb_hash_new with tbl := { entries := h.tbl.entries, gen := 0 } }

/-- rb_hash_merge: the non-destructive merge, rb_hash_update applied to a
duplicate of the receiver. -/
def rb_hash_merge (f : Option (RVal → RVal → RVal → RVal)) (h1 h2 : RHash) : UpdateRes :=
  rb_hash_update f (rb_hash_dup h1) h2

/-- rb_hash_rehash: raises the RuntimeError "rehash during iteration"
while any traversal is active, then checks frozen, then rebuilds a fresh
table (a new object: gen changes) by re-inserting every live entry in
traversal order through st_insert. -/
def rb_hash_rehash (h : RHash) : Except RubyErr RHash :=
  if h.iter_lev > 0 then .error .rehashDuringIteration
  else if h.frozen then .error .frozenHash
  else
    let fresh : StTable := { entries := [], gen := h.tbl.gen + 1 }
    .ok { h with tbl := (liveEntries h.tbl).foldl (fun t e => st_insert t e.1 e.2) fresh }

/-- rb_hash_compare_by_id: frozen check of rb_hash_modify, switch
ntbl->type to identhash, then rb_hash_rehash. -/
def rb_hash_compare_by_id (h : RHash) : Except RubyErr RHash :=
  if h.frozen then .error .frozenHash
  else rb_hash_rehash { h with identcmp := true }

/-- rb_hash_replace: clear the receiver (whose frozen check raises
first), re-insert every entry of the other hash through the traversal
(replace_i stores each visited entry exactly as rb_hash_update_i does),
then copy the other default policy.  The receiver and the argument are
distinct objects here; the hash == hash2 early return is not modelled. -/
def rb_hash_replace (h h2 : RHash) : Except RubyErr RHash :=
  match rb_hash_clear h with
  | .error e => .error e
  | .ok hc =>
    let r := rb_hash_foreach rb_hash_update_i h2 hc
    match r.err with
    | some e => .error e
    | none => .ok { r.a with ifnone := h2.ifnone, procDefault := h2.procDefault }

/-- A callback that requests an explicit rehash of the iterated hash from
inside the traversal, propagating the raised error. -/
def rehashCb : Callback Unit := fun _ _ h a =>
  match rb_hash_rehash h with
  | .ok h2 => ⟨h2, a, .ok .stContinue⟩
  | .error e => ⟨h, a, .error e⟩

/-- The process environment (the environ array of the non-Windows path,
where GET_ENVIRON is the identity): one (name, value) slot per variable,
in array order. -/
abbrev EnvState := List (String × String)

/-- getenv: the value of the first slot holding the name. -/
def getenv (st : EnvState) (nm : String) : Option String :=
  (st.find? (fun e => e.1 == nm)).map Prod.snd

/-- ruby_setenv: with a value, setenv overwrites the slot in place when
the name exists and appends a fresh slot otherwise; with none (unsetenv),
the slot is removed and the following slots shift down. -/
def ruby_setenv (st : EnvState) (nm : String) (val : Option String) : EnvState :=
  match val with
  | some v =>
    if st.any (fun e => e.1 == nm) then
      st.map (fun e => if e.1 == nm then (e.1, v) else e)
    else st ++ [(nm, v)]
  | none => st.filter (fun e => !(e.1 == nm))

/-- RSTRING_LEN differs from strlen exactly when the string embeds a NUL
character, which env_aset rejects as a bad name or value. -/
def hasNul (s : String) : Bool := s.contains (Char.ofNat 0)

/-- env_aset (ENV store): a nil value raises the TypeError "cannot assign
nil; use Hash#delete instead" before anything is touched; then the name
and the value are checked for embedded NUL characters, and only then is
the OS environment mutated through ruby_setenv.  The PATH taint tracking
is out of scope.  The returned pair is the environment after the call and
the raised error, if any. -/
def env_aset (st : EnvState) (nm : String) (val : Option String) :
    EnvState × Option RubyErr :=
  match val with
  | none => (st, some .nilAssignTypeError)
  | some v =>
    if hasNul nm then (st, some .badEnvName)
    else if hasNul v then (st, some .badEnvName)
    else (ruby_setenv st nm (some v), none)

/-- env_keys: the snapshot of all variable names, in array order. -/
def env_keys (st : EnvState) : List String := st.map Prod.fst

/-- An ENV block: receives a name and a value, may mutate the environment
(through ENV.delete, ENV.store and friends), and returns its test result
together with the environment it leaves behind. -/
abbrev EnvBlock := String → String → EnvState → Bool × EnvState

/-- env_select of hash.c: walks the live environ array (env++ on the raw
array pointer) while yielding each (name, value) pair to the block; the
block may mutate the environment through setenv/unsetenv, which replaces
or shifts slots underneath the walking pointer.  The walk is modelled as
an index into the current array state; the fuel is the initial slot
count, which bounds the walk (exact whenever the block only deletes or
overwrites). -/
def env_select_loop (blk : EnvBlock) : Nat → RHash → EnvState → Nat → RHash × EnvState
  | 0, res, st, _ => (res, st)
  | fuel+1, res, st, i =>
    if hi : i < st.length then
      let e := st.get ⟨i, hi⟩
      let (b, st2) := blk e.1 e.2 st
      let res2 := if b then asetD res (vstr e.1) (vstr e.2) else res
      env_select_loop blk fuel res2 st2 (i+1)
    else (res, st)

/-- env_select of hash.c, whole call: a fresh result hash, then the raw
array walk. -/
def env_select (blk : EnvBlock) (st : EnvState) : RHash × EnvState :=
  env_select_loop blk st.length rb_hash_new st 0

/-- Iteration over a previously captured name snapshot, re-reading each
value through getenv before yielding, as env_reject_bang and the env_each
functions of hash.c do. -/
def env_select_snap_loop (blk : EnvBlock) : List String → RHash → EnvState → RHash × EnvState
  | [], res, st => (res, st)
  | k :: ks, res, st =>
    match getenv st k with
    | none => env_select_snap_loop blk ks res st
    | some v =>
      let (b, st2) := blk k v st
      let res2 := if b then asetD res (vstr k) (vstr v) else res
      env_select_snap_loop blk ks res2 st2

/-- Modelled from the spec: the snapshot-isolated select that section 4.4
and property P6 of the design document require (snapshot the full key
list before iterating, then re-read each value); hash.c follows this
pattern in env_reject_bang, env_each_key, env_each_value and
env_each_pair, but env_select walks the raw array instead. -/
def env_select_snapshot (blk : EnvBlock) (st : EnvState) : RHash × EnvState :=
  env_select_snap_loop blk (env_keys st) rb_hash_new st

/-! Support lemmas about the slot store. -/

theorem tombstoneFirst_length (l : List (Option RVal × RVal)) (k : RVal) :
    (tombstoneFirst l k).length = l.length := by
  induction l with
  | nil => rfl
  | cons e rest ih =>
    by_cases hk : e.1 == some k
    · simp [tombstoneFirst, hk]
    · simp [tombstoneFirst, hk, ih]

theorem liveKeys_tombstoneFirst (l : List (Option RVal × RVal)) (k : RVal) :
    (liveList (tombstoneFirst l k)).map Prod.fst =
      ((liveList l).map Prod.fst).erase k := by
  induction l with
  | nil => rfl
  | cons e rest ih =>
    obtain ⟨ko, v⟩ := e
    cases ko with
    | none => simpa [tombstoneFirst, liveList] using ih
    | some k2 =>
      by_cases hk : k2 = k
      · subst hk
        simp [tombstoneFirst, liveList, List.erase_cons]
      · have hbeq : ((some k2 : Option RVal) == some k) = false := by simp [hk]
        have hbeq2 : (k2 == k) = false := by simp [hk]
        simp only [tombstoneFirst, hbeq, Bool.false_eq_true, if_false, liveList,
          List.filterMap_cons, List.map_cons, List.erase_cons, hbeq2]
        simp only [liveList] at ih
        rw [ih]

theorem st_delete_safe_gen (t : StTable) (k : RVal) :
    ((st_delete_safe t k).2).gen = t.gen := by
  cases hf : t.entries.find? (fun e => e.1 == some k) <;> simp [st_delete_safe, hf]

theorem st_delete_gen (t : StTable) (k : RVal) :
    ((st_delete t k).2).gen = t.gen := by
  cases hf : t.entries.find? (fun e => e.1 == some k) <;> simp [st_delete, hf]

theorem st_insert_gen (t : StTable) (k v : RVal) :
    (st_insert t k v).gen = t.gen := by
  by_cases hk : t.entries.any (fun e => e.1 == some k) <;> simp [st_insert, hk]

theorem rb_hash_delete_key_gen (h : RHash) (k : RVal) :
    ((rb_hash_delete_key h k).1).tbl.gen = h.tbl.gen := by
  unfold rb_hash_delete_key
  by_cases hl : h.iter_lev > 0
  · simp only [hl, if_true]
    have hg := st_delete_safe_gen h.tbl k
    rcases hd : st_delete_safe h.tbl k with ⟨vo, t2⟩
    rw [hd] at hg
    cases vo
    · rfl
    · simpa using hg
  · simp only [hl, if_false]
    have hg := st_delete_gen h.tbl k
    rcases hd : st_delete h.tbl k with ⟨vo, t2⟩
    rw [hd] at hg
    cases vo
    · rfl
    · simpa using hg

theorem rb_hash_delete_key_lev (h : RHash) (k : RVal) :
    ((rb_hash_delete_key h k).1).iter_lev = h.iter_lev := by
  unfold rb_hash_delete_key
  by_cases hl : h.iter_lev > 0
  · simp only [hl, if_true]
    rcases hd : st_delete_safe h.tbl k with ⟨vo, t2⟩
    cases vo <;> rfl
  · simp only [hl, if_false]
    rcases hd : st_delete h.tbl k with ⟨vo, t2⟩
    cases vo <;> rfl

theorem st_lookup_none_iff (t : StTable) (k : RVal) :
    st_lookup t k = none ↔ t.entries.any (fun e => e.1 == some k) = false := by
  rw [st_lookup, Option.map_eq_none', List.find?_eq_none, ← Bool.not_eq_true,
    List.any_eq_true]
  simp only [beq_iff_eq, not_exists, Prod.forall, Prod.exists, not_and]

theorem st_insert_absent (t : StTable) (k v : RVal) (hnone : st_lookup t k = none) :
    st_insert t k v = st_add_direct t k v := by
  have := (st_lookup_none_iff t k).1 hnone
  simp [st_insert, st_add_direct, this]

theorem rb_hash_aset_ok (h : RHash) (k v : RVal) (hfr : h.frozen = false) :
    rb_hash_aset h k v = .ok { h with tbl := st_insert h.tbl k v } := by
  unfold rb_hash_aset
  rw [hfr]
  simp only [Bool.false_eq_true, if_false]
  by_cases hc : (h.identcmp || !rval_is_string k || (st_lookup h.tbl k).isSome) = true
  · simp [hc]
  · have hnone : st_lookup h.tbl k = none := by
      rcases hlk : st_lookup h.tbl k with _ | v2
      · rfl
      · rw [hlk] at hc; simp at hc
    simp [hc, st_insert_absent h.tbl k v hnone]

theorem asetD_eq (h : RHash) (k v : RVal) (hfr : h.frozen = false) :
    asetD h k v = { h with tbl := st_insert h.tbl k v } := by
  simp [asetD, rb_hash_aset_ok h k v hfr]

theorem liveList_append (l1 l2 : List (Option RVal × RVal)) :
    liveList (l1 ++ l2) = liveList l1 ++ liveList l2 := by
  simp [liveList, List.filterMap_append]

theorem liveKeys_st_insert_absent (t : StTable) (k v : RVal)
    (hnone : st_lookup t k = none) :
    liveKeys (st_insert t k v) = liveKeys t ++ [k] := by
  rw [st_insert_absent t k v hnone]
  simp [st_add_direct, liveKeys, liveEntries, liveList_append, liveList]

theorem liveKeys_overwrite (l : List (Option RVal × RVal)) (k v : RVal) :
    (liveList (l.map (fun e => if e.1 == some k then (e.1, v) else e))).map Prod.fst =
      (liveList l).map Prod.fst := by
  induction l with
  | nil => rfl
  | cons e rest ih =>
    obtain ⟨ko, v2⟩ := e
    cases ko with
    | none => simpa [liveList] using ih
    | some k2 =>
      by_cases hk : k2 = k
      · subst hk
        simp only [List.map_cons]
        have hbeq : (((some k2 : Option RVal), v2).1 == some k2) = true := by simp
        rw [if_pos hbeq]
        simp only [liveList, List.filterMap_cons, List.map_cons] at ih ⊢
        rw [ih]
      · have hbeq : (((some k2 : Option RVal), v2).1 == some k) = false := by simp [hk]
        simp only [List.map_cons]
        rw [if_neg (by simp [hbeq])]
        simp only [liveList, List.filterMap_cons, List.map_cons] at ih ⊢
        rw [ih]

theorem liveKeys_st_insert_present (t : StTable) (k v : RVal)
    (hsome : (st_lookup t k).isSome) :
    liveKeys (st_insert t k v) = liveKeys t := by
  have hany : t.entries.any (fun e => e.1 == some k) = true := by
    by_contra hc
    rw [(st_lookup_none_iff t k).2 (Bool.eq_false_iff.2 hc)] at hsome
    simp at hsome
  simp only [st_insert, hany, if_true]
  exact liveKeys_overwrite t.entries k v

theorem st_lookup_overwrite_other (l : List (Option RVal × RVal)) (k k2 v : RVal)
    (hne : k2 ≠ k) :
    ((l.map (fun e => if e.1 == some k then (e.1, v) else e)).find?
        (fun e => e.1 == some k2)).map Prod.snd =
      (l.find? (fun e => e.1 == some k2)).map Prod.snd := by
  have hkk2 : k ≠ k2 := fun hc => hne hc.symm
  induction l with
  | nil => rfl
  | cons e rest ih =>
    by_cases hk : e.1 = some k
    · simp only [List.map_cons, if_pos (show (e.1 == some k) = true by simp [hk])]
      rw [@List.find?_cons_of_neg _ (fun e => e.1 == some k2) (e.1, v) _
        (by simp [hk, hkk2])]
      rw [@List.find?_cons_of_neg _ (fun e => e.1 == some k2) e _ (by simp [hk, hkk2])]
      exact ih
    · simp only [List.map_cons, if_neg (show ¬((e.1 == some k) = true) by simp [hk])]
      by_cases hk2 : e.1 = some k2
      · rw [@List.find?_cons_of_pos _ (fun e => e.1 == some k2) e _ (by simp [hk2])]
        rw [@List.find?_cons_of_pos _ (fun e => e.1 == some k2) e _ (by simp [hk2])]
      · rw [@List.find?_cons_of_neg _ (fun e => e.1 == some k2) e _ (by simp [hk2])]
        rw [@List.find?_cons_of_neg _ (fun e => e.1 == some k2) e _ (by simp [hk2])]
        exact ih

theorem st_lookup_st_insert_other (t : StTable) (k k2 v : RVal) (hne : k2 ≠ k) :
    st_lookup (st_insert t k v) k2 = st_lookup t k2 := by
  have hkk2 : k ≠ k2 := fun hc => hne hc.symm
  by_cases hany : t.entries.any (fun e => e.1 == some k) = true
  · simp only [st_insert, hany, if_true, st_lookup]
    exact st_lookup_overwrite_other t.entries k k2 v hne
  · have hne2 := Bool.eq_false_iff.2 hany
    simp only [st_insert, hne2, Bool.false_eq_true, if_false, st_lookup]
    rw [List.find?_append]
    have hsingle : List.find? (fun e => e.1 == some k2) [((some k : Option RVal), v)] = none := by
      rw [@List.find?_cons_of_neg _ (fun e => e.1 == some k2) ((some k : Option RVal), v) _
        (by simp [hkk2])]
      rfl
    rw [hsingle]
    cases List.find? (fun e => e.1 == some k2) t.entries <;> rfl

theorem find_overwrite_self (l : List (Option RVal × RVal)) (k v : RVal)
    (hany : l.any (fun e => e.1 == some k) = true) :
    ((l.map (fun e => if e.1 == some k then (e.1, v) else e)).find?
        (fun e => e.1 == some k)).map Prod.snd = some v := by
  induction l with
  | nil => simp at hany
  | cons e rest ih =>
    by_cases hk : e.1 = some k
    · simp only [List.map_cons, if_pos (show (e.1 == some k) = true by simp [hk])]
      rw [@List.find?_cons_of_pos _ (fun e => e.1 == some k) (e.1, v) _ (by simp [hk])]
      rfl
    · have hpe : ¬((e.1 == some k) = true) := by simp [hk]
      simp only [List.map_cons, if_neg hpe]
      rw [@List.find?_cons_of_neg _ (fun e => e.1 == some k) e _ hpe]
      apply ih
      rcases List.any_eq_true.1 hany with ⟨x, hxm, hxp⟩
      rcases List.mem_cons.1 hxm with hxe | hxr
      · rw [hxe] at hxp; exact absurd hxp hpe
      · exact List.any_eq_true.2 ⟨x, hxr, hxp⟩

theorem st_lookup_st_insert_self (t : StTable) (k v : RVal) :
    st_lookup (st_insert t k v) k = some v := by
  by_cases hany : t.entries.any (fun e => e.1 == some k) = true
  · simp only [st_insert, hany, if_true, st_lookup]
    exact find_overwrite_self t.entries k v hany
  · have hne2 := Bool.eq_false_iff.2 hany
    simp only [st_insert, hne2, Bool.false_eq_true, if_false, st_lookup]
    rw [List.find?_append]
    have hnone : t.entries.find? (fun e => e.1 == some k) = none := by
      have := (st_lookup_none_iff t k).2 hne2
      rw [st_lookup, Option.map_eq_none'] at this
      exact this
    rw [hnone, @List.find?_cons_of_pos _ (fun e => e.1 == some k) ((some k : Option RVal), v) _
      (by simp)]
    rfl

theorem liveList_cleanup (l : List (Option RVal × RVal)) :
    liveList (l.filter (fun e => e.1.isSome)) = liveList l := by
  induction l with
  | nil => rfl
  | cons e rest ih =>
    obtain ⟨ko, v⟩ := e
    cases ko with
    | none => simpa [liveList, List.filter_cons] using ih
    | some k2 => simpa [liveList, List.filter_cons] using ih

theorem noTombB_cleanup (t : StTable) : noTombB (st_cleanup_safe t) = true := by
  simp only [noTombB, st_cleanup_safe, List.all_eq_true]
  intro e hmem
  exact (List.mem_filter.1 hmem).2

theorem liveEntries_cleanup (t : StTable) :
    liveEntries (st_cleanup_safe t) = liveEntries t := by
  simp only [liveEntries, st_cleanup_safe]
  exact liveList_cleanup t.entries

theorem foldl_append_keys (l : List (RVal × RVal)) (a0 : List RVal) :
    l.foldl (fun acc e => acc ++ [e.1]) a0 = a0 ++ l.map Prod.fst := by
  induction l generalizing a0 with
  | nil => simp
  | cons e rest ih => simp [List.foldl_cons, ih]

theorem liveList_cons_none (x : Option RVal × RVal) (l : List (Option RVal × RVal))
    (hx : x.1 = none) : liveList (x :: l) = liveList l := by
  simp [liveList, List.filterMap_cons, hx]

theorem liveList_cons_some (x : Option RVal × RVal) (l : List (Option RVal × RVal))
    (k : RVal) (hx : x.1 = some k) : liveList (x :: l) = (k, x.2) :: liveList l := by
  simp [liveList, List.filterMap_cons, hx]

theorem foreachLoop_pure {A : Type} (cb : Callback A) (step : RVal → RVal → A → A)
    (P : A → Prop)
    (hcb : ∀ k v h a, P a → cb k v h a = ⟨h, step k v a, .ok .stContinue⟩)
    (hP : ∀ k v a, P a → P (step k v a)) :
    ∀ (fuel : Nat) (h : RHash) (a : A) (i : Nat), P a →
      h.tbl.entries.length ≤ fuel + i →
      foreachLoop cb fuel h a i =
        ⟨h, (liveList (h.tbl.entries.drop i)).foldl (fun acc e => step e.1 e.2 acc) a, none⟩ := by
  intro fuel
  induction fuel with
  | zero =>
    intro h a i hPa hlen
    have hdrop : h.tbl.entries.drop i = [] := List.drop_eq_nil_of_le (by omega)
    simp [foreachLoop, hdrop, liveList]
  | succ fuel ih =>
    intro h a i hPa hlen
    by_cases hi : i < h.tbl.entries.length
    · have hdrop : h.tbl.entries.drop i =
          h.tbl.entries.get ⟨i, hi⟩ :: h.tbl.entries.drop (i+1) := by
        rw [List.drop_eq_getElem_cons hi]
        simp
      rw [foreachLoop, dif_pos hi]
      rcases hk : (h.tbl.entries.get ⟨i, hi⟩).1 with _ | k
      · rw [ih h a (i+1) hPa (by omega)]
        rw [hdrop, liveList_cons_none _ _ hk]
      · simp only [hcb k (h.tbl.entries.get ⟨i, hi⟩).2 h a hPa]
        rw [if_neg (show ¬(h.tbl.gen ≠ h.tbl.gen) by simp)]
        rw [ih h (step k (h.tbl.entries.get ⟨i, hi⟩).2 a) (i+1)
          (hP _ _ _ hPa) (by omega)]
        rw [hdrop, liveList_cons_some _ _ k hk, List.foldl_cons]
    · have hdrop : h.tbl.entries.drop i = [] := List.drop_eq_nil_of_le (by omega)
      rw [foreachLoop, dif_neg hi, hdrop]
      simp [liveList]

theorem foreachLoop_abort {A : Type} (cb : Callback A) (e0 : RubyErr) (a : A)
    (hcb : ∀ k v h, cb k v h a = ⟨h, a, .error e0⟩) :
    ∀ (fuel : Nat) (h : RHash) (i : Nat), h.tbl.entries.length ≤ fuel + i →
      foreachLoop cb fuel h a i =
        ⟨h, a, if liveList (h.tbl.entries.drop i) = [] then none else some e0⟩ := by
  intro fuel
  induction fuel with
  | zero =>
    intro h i hlen
    have hdrop : h.tbl.entries.drop i = [] := List.drop_eq_nil_of_le (by omega)
    simp [foreachLoop, hdrop, liveList]
  | succ fuel ih =>
    intro h i hlen
    by_cases hi : i < h.tbl.entries.length
    · have hdrop : h.tbl.entries.drop i =
          h.tbl.entries.get ⟨i, hi⟩ :: h.tbl.entries.drop (i+1) := by
        rw [List.drop_eq_getElem_cons hi]
        simp
      rw [foreachLoop, dif_pos hi]
      rcases hk : (h.tbl.entries.get ⟨i, hi⟩).1 with _ | k
      · rw [ih h (i+1) (by omega), hdrop, liveList_cons_none _ _ hk]
      · simp only [hcb k (h.tbl.entries.get ⟨i, hi⟩).2 h]
        rw [hdrop, liveList_cons_some _ _ k hk]
        simp
    · have hdrop : h.tbl.entries.drop i = [] := List.drop_eq_nil_of_le (by omega)
      rw [foreachLoop, dif_neg hi, hdrop]
      simp [liveList]

/-- Invariant relating HASH_DELETED to the table: while the flag is
clear, no tombstoned slot exists.  Every hash ever observable at
traversal depth 0 satisfies it, and the tombstone protocol preserves
it. -/
def hashInv (h : RHash) : Prop := h.deleted = false → noTombB h.tbl = true

theorem foreachLoop_lev_inv {A : Type} (cb : Callback A) (L : Nat)
    (hcb : ∀ k v h a, ((cb k v h a).h.iter_lev = h.iter_lev ∧
      (hashInv h → hashInv (cb k v h a).h))) :
    ∀ (fuel : Nat) (h : RHash) (a : A) (i : Nat), h.iter_lev = L → hashInv h →
      (foreachLoop cb fuel h a i).h.iter_lev = L ∧
        hashInv (foreachLoop cb fuel h a i).h := by
  intro fuel
  induction fuel with
  | zero =>
    intro h a i hlev hinv
    exact ⟨hlev, hinv⟩
  | succ fuel ih =>
    intro h a i hlev hinv
    rw [foreachLoop]
    by_cases hi : i < h.tbl.entries.length
    · rw [dif_pos hi]
      rcases hk : (h.tbl.entries.get ⟨i, hi⟩).1 with _ | k
      · exact ih h a (i+1) hlev hinv
      · obtain ⟨hclev, hcinv⟩ := hcb k (h.tbl.entries.get ⟨i, hi⟩).2 h a
        rcases hout : (cb k (h.tbl.entries.get ⟨i, hi⟩).2 h a).out with e | st
        · simp only [hout]
          exact ⟨hclev.trans hlev, hcinv hinv⟩
        · simp only [hout]
          by_cases hgen : (cb k (h.tbl.entries.get ⟨i, hi⟩).2 h a).h.tbl.gen ≠ h.tbl.gen
          · rw [if_pos hgen]
            exact ⟨hclev.trans hlev, hcinv hinv⟩
          · rw [if_neg hgen]
            cases st with
            | stDelete =>
              apply ih
              · exact hclev.trans hlev
              · intro hdel
                exact absurd hdel (by simp)
            | stStop => exact ⟨hclev.trans hlev, hcinv hinv⟩
            | stContinue =>
              exact ih _ _ (i+1) (hclev.trans hlev) (hcinv hinv)
    · rw [dif_neg hi]
      exact ⟨hlev, hinv⟩

theorem foreachLoop_delete_if (p : RVal → RVal → Bool) :
    ∀ (fuel : Nat) (h : RHash) (i : Nat), 0 < h.iter_lev →
      (foreachLoop (delete_if_i p) fuel h () i).err = none := by
  intro fuel
  induction fuel with
  | zero => intro h i _; rfl
  | succ fuel ih =>
    intro h i hlev
    rw [foreachLoop]
    by_cases hi : i < h.tbl.entries.length
    · rw [dif_pos hi]
      rcases hk : (h.tbl.entries.get ⟨i, hi⟩).1 with _ | k
      · exact ih h (i+1) hlev
      · simp only [delete_if_i]
        by_cases hp : p k (h.tbl.entries.get ⟨i, hi⟩).2
        · simp only [hp, if_true]
          rw [if_neg (show ¬(((rb_hash_delete_key h k).1).tbl.gen ≠ h.tbl.gen) by
            simp [rb_hash_delete_key_gen])]
          refine ih _ (i+1) ?_
          rw [rb_hash_delete_key_lev]
          exact hlev
        · simp only [hp, Bool.false_eq_true, if_false]
          rw [if_neg (show ¬(h.tbl.gen ≠ h.tbl.gen) by simp)]
          exact ih h (i+1) hlev
    · rw [dif_neg hi]

theorem rb_hash_foreach_keys_spec (h : RHash) (a0 : List RVal) :
    rb_hash_foreach keys_i h a0 =
      ⟨hash_foreach_ensure { h with iter_lev := h.iter_lev + 1 },
        a0 ++ liveKeys h.tbl, none⟩ := by
  have hloop := foreachLoop_pure keys_i (fun k _ a => a ++ [k]) (fun _ => True)
    (fun _ _ _ _ _ => rfl) (fun _ _ _ _ => trivial)
    ({ h with iter_lev := h.iter_lev + 1 }).tbl.entries.length
    { h with iter_lev := h.iter_lev + 1 } a0 0 trivial (by omega)
  simp only [rb_hash_foreach, hloop, List.drop_zero, foldl_append_keys]
  rfl

theorem ensure_toplevel (hh : RHash) (hl : hh.iter_lev = 1) (hinv : hashInv hh) :
    (hash_foreach_ensure hh).iter_lev = 0 ∧ (hash_foreach_ensure hh).deleted = false
      ∧ noTombB (hash_foreach_ensure hh).tbl = true := by
  unfold hash_foreach_ensure
  rw [hl]
  by_cases hd : hh.deleted
  · simp [hd, noTombB_cleanup]
  · have hnd : hh.deleted = false := Bool.eq_false_iff.2 hd
    simp [hnd, hinv hnd]

/-- Modelled from the spec: one step of the merge contract of section 4.1
of the design document, expressed with the words of the spec: for a key
already present, invoke the resolver (when given) with the key, the
existing value and the incoming value and store its result, else
overwrite; a key not already present is simply inserted. -/
def mergeStepSpec (f : Option (RVal → RVal → RVal → RVal)) (h1 : RHash)
    (e : RVal × RVal) : RHash :=
  match st_lookup h1.tbl e.1, f with
  | some old, some g => asetD h1 e.1 (g e.1 old e.2)
  | _, _ => asetD h1 e.1 e.2

theorem update_cb_frozen (f : Option (RVal → RVal → RVal → RVal)) (h1 : RHash)
    (hfz : h1.frozen = true) (k v : RVal) (hh : RHash) :
    (match f with
      | some g => rb_hash_update_block_i g
      | none => rb_hash_update_i) k v hh h1 = ⟨hh, h1, .error .frozenHash⟩ := by
  cases f with
  | none => simp [rb_hash_update_i, rb_hash_aset, hfz]
  | some g => simp [rb_hash_update_block_i, rb_hash_aset, hfz]

theorem rb_hash_update_frozen (f : Option (RVal → RVal → RVal → RVal))
    (h1 h2 : RHash) (hfz : h1.frozen = true) :
    (rb_hash_update f h1 h2).h1 = h1
    ∧ (rb_hash_update f h1 h2).err =
        (if liveEntries h2.tbl = [] then none else some .frozenHash) := by
  have hloop := foreachLoop_abort
    (match f with
      | some g => rb_hash_update_block_i g
      | none => rb_hash_update_i) .frozenHash h1
    (fun k v hh => update_cb_frozen f h1 hfz k v hh)
    ({ h2 with iter_lev := h2.iter_lev + 1 }).tbl.entries.length
    { h2 with iter_lev := h2.iter_lev + 1 } 0 (by omega)
  simp only [rb_hash_update, rb_hash_foreach, hloop, List.drop_zero]
  refine ⟨?_, ?_⟩ <;> first | rfl | trivial

theorem update_cb_unfrozen (f : Option (RVal → RVal → RVal → RVal))
    (k v : RVal) (hh h1 : RHash) (hfr : h1.frozen = false) :
    (match f with
      | some g => rb_hash_update_block_i g
      | none => rb_hash_update_i) k v hh h1 =
      ⟨hh, mergeStepSpec f h1 (k, v), .ok .stContinue⟩ := by
  cases f with
  | none =>
    simp only [rb_hash_update_i, rb_hash_aset_ok _ _ _ hfr, mergeStepSpec]
    rcases hlk : st_lookup h1.tbl k with _ | old <;>
      simp [hlk, asetD_eq _ _ _ hfr]
  | some g =>
    simp only [rb_hash_update_block_i, mergeStepSpec]
    rcases hlk : st_lookup h1.tbl k with _ | old <;>
      simp [hlk, rb_hash_aset_ok _ _ _ hfr, asetD_eq _ _ _ hfr]

theorem mergeStepSpec_frozen (f : Option (RVal → RVal → RVal → RVal))
    (h1 : RHash) (e : RVal × RVal) :
    (mergeStepSpec f h1 e).frozen = h1.frozen := by
  unfold mergeStepSpec asetD
  rcases hlk : st_lookup h1.tbl e.1 with _ | old <;> cases f <;>
    simp [hlk] <;>
    rcases ha : rb_hash_aset h1 e.1 _ with h3 | h3 <;>
    first
      | rfl
      | (by_cases hfr : h1.frozen = true
         · rw [rb_hash_aset] at ha; simp [hfr] at ha
         · have hfr2 : h1.frozen = false := Bool.eq_false_iff.2 hfr
           rw [rb_hash_aset_ok _ _ _ hfr2] at ha
           cases ha
           simp [hfr2])

theorem rb_hash_update_ok (f : Option (RVal → RVal → RVal → RVal)) (h1 h2 : RHash)
    (hfr : h1.frozen = false) :
    (rb_hash_update f h1 h2).h1 = (liveEntries h2.tbl).foldl (mergeStepSpec f) h1
    ∧ (rb_hash_update f h1 h2).err = none := by
  have hloop := foreachLoop_pure
    (match f with
      | some g => rb_hash_update_block_i g
      | none => rb_hash_update_i)
    (fun k v a => mergeStepSpec f a (k, v))
    (fun a => a.frozen = false)
    (fun k v hh a ha => update_cb_unfrozen f k v hh a ha)
    (fun k v a ha => by
      show (mergeStepSpec f a (k, v)).frozen = false
      rw [mergeStepSpec_frozen]
      exact ha)
    ({ h2 with iter_lev := h2.iter_lev + 1 }).tbl.entries.length
    { h2 with iter_lev := h2.iter_lev + 1 } h1 0 hfr (by omega)
  simp only [rb_hash_update, rb_hash_foreach, hloop, List.drop_zero]
  refine ⟨?_, ?_⟩ <;> first | rfl | trivial

/-- Claim C2: strict fetch of a missing key raises KeyError; with both a
fallback and a block the block result wins; fetch never reads the default
policy fields (two hashes sharing a table fetch identically for every
argument combination); a miss of get always goes through
rb_hash_default. -/
theorem C2_fetch_strict_and_policy_bypass
    (h h2 : RHash) (k : RVal) (fb : Option RVal) (blk : Option (RVal → RVal))
    (hmiss : st_lookup h.tbl k = none) (htbl : h2.tbl = h.tbl) :
    rb_hash_fetch h k none none = .error .keyNotFound
    ∧ (∀ d g, rb_hash_fetch h k (some d) (some g) = .ok (g k))
    ∧ rb_hash_fetch h2 k fb blk = rb_hash_fetch h k fb blk
    ∧ rb_hash_aref h k = rb_hash_default h (some k) := by
  refine ⟨?_, ?_, ?_, ?_⟩
  · simp [rb_hash_fetch, hmiss]
  · intro d g
    simp [rb_hash_fetch, hmiss]
  · simp [rb_hash_fetch, htbl]
  · simp [rb_hash_aref, hmiss]

def exC2h2 : RHash := { rb_hash_new with ifnone := vstr "d", procDefault := true }

theorem C2_fetch_witness :
    st_lookup rb_hash_new.tbl (vint 5) = none
    ∧ rb_hash_fetch rb_hash_new (vint 5) none none = .error .keyNotFound :=
  ⟨rfl, (C2_fetch_strict_and_policy_bypass rb_hash_new exC2h2 (vint 5) none none
    rfl rfl).1⟩

def goFishHash : RHash := { rb_hash_new with ifnone := vstr "go fish" }

def goFishHash1 : RHash := asetD goFishHash (vstr "a") (vint 100)

/-- Claim C3: a miss of get under a static default returns the stored
ifnone, under a proc default it invokes the proc with (hash, key) and
returns its result, and a miss stores nothing; the go-fish scenario of
the design document holds. -/
theorem C3_default_policy_get (h : RHash) (k : RVal)
    (hmiss : st_lookup h.tbl k = none) :
    (h.procDefault = false → rb_hash_aref h k = .val h.ifnone)
    ∧ (h.procDefault = true → rb_hash_aref h k = .callProc h.ifnone h k)
    ∧ rb_hash_init none (some (vstr "go fish")) = .ok goFishHash
    ∧ rb_hash_aset goFishHash (vstr "a") (vint 100) = .ok goFishHash1
    ∧ rb_hash_aref goFishHash1 (vstr "a") = .val (vint 100)
    ∧ rb_hash_aref goFishHash1 (vstr "z") = .val (vstr "go fish")
    ∧ rb_hash_size goFishHash1 = 1 := by
  refine ⟨?_, ?_, rfl, rfl, by decide, by decide, by decide⟩
  · intro hpd
    simp [rb_hash_aref, hmiss, rb_hash_default, hpd]
  · intro hpd
    simp [rb_hash_aref, hmiss, rb_hash_default, hpd]

theorem C3_default_policy_witness :
    st_lookup goFishHash1.tbl (vstr "z") = none
    ∧ rb_hash_size goFishHash1 = 1 :=
  ⟨by decide, (C3_default_policy_get goFishHash1 (vstr "z")
    (by decide)).2.2.2.2.2.2⟩

/-- Claim C8: the three default-policy states are mutually exclusive and
exhaustive; installing a static default clears HASH_PROC_DEFAULT (so any
computed-on-miss callback is gone) and stores the value; a hash built
with a block is in the computed state and in no other. -/
theorem C8_default_policy_exclusive (h h2 hb : RHash) (v p : RVal)
    (hsd : rb_hash_set_default h v = .ok h2)
    (hinit : rb_hash_init (some p) none = .ok hb) :
    (noneActive h).toNat + (staticActive h).toNat + (computedActive h).toNat = 1
    ∧ computedActive h2 = false
    ∧ h2.ifnone = v
    ∧ (v ≠ vnil → staticActive h2 = true)
    ∧ computedActive hb = true ∧ staticActive hb = false ∧ noneActive hb = false := by
  have hh2 : h2 = { h with ifnone := v, procDefault := false } := by
    by_cases hf : h.frozen = true
    · simp [rb_hash_set_default, hf] at hsd
    · rw [rb_hash_set_default, if_neg hf] at hsd
      injection hsd with h3
      exact h3.symm
  have hhb : hb = { rb_hash_new with ifnone := p, procDefault := true } := by
    simp [rb_hash_init] at hinit
    exact hinit.symm
  subst hh2
  subst hhb
  refine ⟨?_, rfl, rfl, ?_, rfl, rfl, rfl⟩
  · rcases hpd : h.procDefault <;> by_cases hnil : h.ifnone = vnil
    · simp [noneActive, staticActive, computedActive, hpd, hnil]
    · have hb : (h.ifnone == vnil) = false := beq_eq_false_iff_ne.2 hnil
      simp [noneActive, staticActive, computedActive, hpd, hb]
    · simp [noneActive, staticActive, computedActive, hpd, hnil]
    · have hb : (h.ifnone == vnil) = false := beq_eq_false_iff_ne.2 hnil
      simp [noneActive, staticActive, computedActive, hpd, hb]
  · intro hv
    simp [staticActive, hv]

theorem C8_default_policy_witness :
    rb_hash_set_default rb_hash_new (vint 3) = .ok { rb_hash_new with ifnone := vint 3 }
    ∧ computedActive { rb_hash_new with ifnone := vint 3 } = false :=
  ⟨rfl, (C8_default_policy_exclusive rb_hash_new { rb_hash_new with ifnone := vint 3 }
    { rb_hash_new with ifnone := vproc 7, procDefault := true } (vint 3) (vproc 7)
    rfl rfl).2.1⟩

/-- Claim C10: storing nil into the environment raises the TypeError
"cannot assign nil; use Hash#delete instead" before anything is written,
so every variable keeps its previous value. -/
theorem C10_env_store_nil (st : EnvState) (nm : String) :
    env_aset st nm none = (st, some .nilAssignTypeError)
    ∧ (∀ nm2, getenv ((env_aset st nm none).1) nm2 = getenv st nm2) :=
  ⟨rfl, fun _ => rfl⟩

def envC9 : EnvState := [("A", "1"), ("B", "2")]

def blkC9 : EnvBlock := fun k _ st =>
  if k == "A" then (false, ruby_setenv st "A" none) else (true, st)

/-- Claim C9: env_select walks the live environ array, so a block that
deletes the variable it is visiting shifts the later slots under the
cursor and they are never yielded; here B stays set the whole time yet
the selection comes back empty, while the snapshot-isolated select the
design document requires (the env_keys pattern of env_reject_bang)
yields B and selects it. -/
theorem C9_env_select_not_snapshot :
    liveEntries (env_select blkC9 envC9).1.tbl = []
    ∧ (env_select blkC9 envC9).2 = [("B", "2")]
    ∧ getenv (env_select blkC9 envC9).2 "B" = some "2"
    ∧ liveEntries (env_select_snapshot blkC9 envC9).1.tbl = [(vstr "B", vstr "2")]
    ∧ (env_select_snapshot blkC9 envC9).2 = [("B", "2")] := by
  refine ⟨?_, ?_, ?_, ?_, ?_⟩ <;> decide

/-- A hash built from an empty one by a sequence of store calls. -/
def buildHash (ps : List (RVal × RVal)) : RHash :=
  ps.foldl (fun h e => asetD h e.1 e.2) rb_hash_new

theorem buildHash_fold (ps : List (RVal × RVal)) :
    ∀ (h0 : RHash), h0.frozen = false →
      (∀ e ∈ ps, st_lookup h0.tbl e.1 = none) → (ps.map Prod.fst).Nodup →
      liveKeys ((ps.foldl (fun h e => asetD h e.1 e.2) h0).tbl) =
        liveKeys h0.tbl ++ ps.map Prod.fst := by
  induction ps with
  | nil =>
    intro h0 _ _ _
    simp
  | cons e rest ih =>
    intro h0 hfr habs hnd
    have habs_e : st_lookup h0.tbl e.1 = none := habs e (List.mem_cons_self e rest)
    have hnd0 : (e.1 :: rest.map Prod.fst).Nodup := by
      rw [List.map_cons] at hnd
      exact hnd
    have hnd2 := List.nodup_cons.1 hnd0
    rw [List.foldl_cons, asetD_eq h0 e.1 e.2 hfr]
    have habs1 : ∀ x ∈ rest,
        st_lookup ({ h0 with tbl := st_insert h0.tbl e.1 e.2 }).tbl x.1 = none := by
      intro x hx
      have hne : x.1 ≠ e.1 := by
        intro hc
        exact hnd2.1 (hc ▸ List.mem_map_of_mem Prod.fst hx)
      show st_lookup (st_insert h0.tbl e.1 e.2) x.1 = none
      rw [st_lookup_st_insert_other h0.tbl e.1 x.1 e.2 hne]
      exact habs x (List.mem_cons_of_mem e hx)
    rw [ih { h0 with tbl := st_insert h0.tbl e.1 e.2 } hfr habs1 hnd2.2]
    show liveKeys (st_insert h0.tbl e.1 e.2) ++ _ = _
    rw [liveKeys_st_insert_absent h0.tbl e.1 e.2 habs_e]
    simp

/-- Claim C4: starting from an empty hash, a sequence of stores with
pairwise distinct keys is enumerated by the traversal exactly in call
order, the traversal raises nothing, Hash#keys returns that order, and a
value overwrite of a present key (a non-structural mutation) leaves the
key order untouched. -/
theorem C4_insertion_order (ps : List (RVal × RVal)) (h hs : RHash) (k v : RVal)
    (hnd : (ps.map Prod.fst).Nodup) (hfr : h.frozen = false)
    (hpresent : (st_lookup h.tbl k).isSome = true)
    (haset : rb_hash_aset h k v = .ok hs) :
    (rb_hash_foreach keys_i (buildHash ps) []).a = ps.map Prod.fst
    ∧ (rb_hash_foreach keys_i (buildHash ps) []).err = none
    ∧ rb_hash_keys (buildHash ps) = ps.map Prod.fst
    ∧ liveKeys hs.tbl = liveKeys h.tbl := by
  have hkeys : liveKeys (buildHash ps).tbl = ps.map Prod.fst := by
    have hb := buildHash_fold ps rb_hash_new rfl (fun e _ => rfl) hnd
    simpa [buildHash] using hb
  have hforeach := rb_hash_foreach_keys_spec (buildHash ps) []
  refine ⟨?_, ?_, ?_, ?_⟩
  · rw [hforeach]
    simpa using hkeys
  · rw [hforeach]
  · rw [rb_hash_keys, hforeach]
    simpa using hkeys
  · rw [rb_hash_aset_ok h k v hfr] at haset
    injection haset with h3
    rw [← h3]
    exact liveKeys_st_insert_present h.tbl k v hpresent

def exC4ps : List (RVal × RVal) := [(vstr "b", vint 2), (vstr "a", vint 1), (vint 5, vnil)]

theorem C4_insertion_order_witness :
    (exC4ps.map Prod.fst).Nodup
    ∧ (rb_hash_foreach keys_i (buildHash exC4ps) []).a = [vstr "b", vstr "a", vint 5] :=
  ⟨by decide,
    ((C4_insertion_order exC4ps (buildHash exC4ps)
      (asetD (buildHash exC4ps) (vstr "a") (vint 7)) (vstr "a") (vint 7)
      (by decide) (by decide) (by decide) rfl).1).trans (by decide)⟩

/-- Claim C5: an explicit rehash while any traversal is active raises the
RuntimeError immediately; the traversal step detects a structural table
replacement under its feet (the ntbl captured before the callback no
longer matches) and raises "rehash occurred during iteration"; deletions
through the tombstone path never change the table object, so a whole
delete_if pass raises nothing; and a callback that requests a rehash of
the iterated hash fails at the visited slot. -/
theorem C5_iteration_invalidation {A : Type} (cb : Callback A)
    (hA hB hC hD : RHash) (a : A) (p : RVal → RVal → Bool) (s : StStatus)
    (fuel i j fuel2 : Nat) (k2 v2 k3 : RVal)
    (hlevA : 0 < hA.iter_lev)
    (hi : i < hB.tbl.entries.length)
    (hget : hB.tbl.entries.get ⟨i, hi⟩ = (some k2, v2))
    (hout : (cb k2 v2 hB a).out = .ok s)
    (hgen : (cb k2 v2 hB a).h.tbl.gen ≠ hB.tbl.gen)
    (hfrC : hC.frozen = false)
    (hj : j < hD.tbl.entries.length)
    (hDget : (hD.tbl.entries.get ⟨j, hj⟩).1 = some k3)
    (hDlev : 0 < hD.iter_lev) :
    rb_hash_rehash hA = .error .rehashDuringIteration
    ∧ foreachLoop cb (fuel+1) hB a i =
        ⟨(cb k2 v2 hB a).h, (cb k2 v2 hB a).a, some .rehashOccurredDuringIteration⟩
    ∧ (rb_hash_delete_if p hC).2 = none
    ∧ foreachLoop rehashCb (fuel2+1) hD () j = ⟨hD, (), some .rehashDuringIteration⟩ := by
  refine ⟨?_, ?_, ?_, ?_⟩
  · simp [rb_hash_rehash, hlevA]
  · have h1 : (hB.tbl.entries.get ⟨i, hi⟩).1 = some k2 := by rw [hget]
    have h2 : (hB.tbl.entries.get ⟨i, hi⟩).2 = v2 := by rw [hget]
    rw [foreachLoop, dif_pos hi]
    simp only [h1, h2, hout]
    rw [if_pos hgen]
  · simp only [rb_hash_delete_if, hfrC, Bool.false_eq_true, if_false, rb_hash_foreach]
    exact foreachLoop_delete_if p _ _ 0 (by simp)
  · have hre : rb_hash_rehash hD = .error .rehashDuringIteration := by
      simp [rb_hash_rehash, hDlev]
    rw [foreachLoop, dif_pos hj]
    simp only [hDget, rehashCb, hre]

/-- A callback that structurally replaces the table of the iterated hash
(the fresh object has a different identity), standing in for any block
that swaps ntbl underneath the traversal. -/
def genBumpCb : Callback Unit := fun _ _ h a =>
  ⟨{ h with tbl := { h.tbl with gen := h.tbl.gen + 1 } }, a, .ok .stContinue⟩

def exC5tbl : StTable := { entries := [(some (vint 1), vint 10)], gen := 0 }

def exC5hash : RHash := { rb_hash_new with tbl := exC5tbl, iter_lev := 1 }

theorem C5_iteration_invalidation_witness :
    0 < exC5hash.iter_lev
    ∧ rb_hash_rehash exC5hash = .error .rehashDuringIteration
    ∧ foreachLoop genBumpCb 1 exC5hash () 0 =
        ⟨(genBumpCb (vint 1) (vint 10) exC5hash ()).h, (), some .rehashOccurredDuringIteration⟩ := by
  have hall := C5_iteration_invalidation genBumpCb exC5hash exC5hash rb_hash_new exC5hash
    () (fun _ _ => true) .stContinue 0 0 0 0 (vint 1) (vint 10) (vint 1)
    (by decide) (by decide) rfl rfl (by decide) rfl (by decide) rfl (by decide)
  exact ⟨by decide, hall.1, hall.2.1⟩

def exC6tbl : StTable := { entries := [(some (vstr "a"), vint 1)], gen := 0 }

def exC6frozen : RHash := { rb_hash_new with tbl := exC6tbl, frozen := true }

/-- Claim C6 (amended): every mutating operation on a frozen hash raises
the frozen error before touching it — except merge! whose traversal of an
other hash with no live entry performs no store at all and returns
without raising; in every case the receiver is left unchanged (the
operations that raise return no new state, and merge! hands back the
receiver untouched). -/
theorem C6_frozen_mutations (h h2 : RHash) (k v : RVal) (p : RVal → RVal → Bool)
    (blk : Option (RVal → RVal)) (f : Option (RVal → RVal → RVal → RVal))
    (hfz : h.frozen = true) :
    rb_hash_aset h k v = .error .frozenHash
    ∧ rb_hash_delete h k blk = .error .frozenHash
    ∧ rb_hash_clear h = .error .frozenHash
    ∧ rb_hash_delete_if p h = (h, some .frozenHash)
    ∧ rb_hash_replace h h2 = .error .frozenHash
    ∧ rb_hash_set_default h v = .error .frozenHash
    ∧ rb_hash_compare_by_id h = .error .frozenHash
    ∧ (rb_hash_update f h h2).h1 = h
    ∧ (liveEntries h2.tbl ≠ [] → (rb_hash_update f h h2).err = some .frozenHash) := by
  refine ⟨?_, ?_, ?_, ?_, ?_, ?_, ?_, ?_, ?_⟩
  · simp [rb_hash_aset, hfz]
  · simp [rb_hash_delete, hfz]
  · simp [rb_hash_clear, hfz]
  · simp [rb_hash_delete_if, hfz]
  · simp [rb_hash_replace, rb_hash_clear, hfz]
  · simp [rb_hash_set_default, hfz]
  · simp [rb_hash_compare_by_id, hfz]
  · exact (rb_hash_update_frozen f h h2 hfz).1
  · intro hne
    rw [(rb_hash_update_frozen f h h2 hfz).2, if_neg hne]

/-- Claim C6, counterexample to the claim as stated: merge! of an empty
other hash into a frozen hash raises nothing (the per-entry store that
carries the frozen check never runs), so "every mutating operation raises
the frozen-state error" fails for merge!; the receiver is still left
unchanged. -/
theorem C6_merge_empty_counterexample :
    exC6frozen.frozen = true
    ∧ (rb_hash_update none exC6frozen rb_hash_new).err = none
    ∧ (rb_hash_update none exC6frozen rb_hash_new).h1 = exC6frozen := by
  refine ⟨rfl, ?_, ?_⟩ <;> decide

theorem C6_frozen_mutations_witness :
    exC6frozen.frozen = true
    ∧ rb_hash_aset exC6frozen (vint 1) (vint 2) = .error .frozenHash :=
  ⟨rfl, (C6_frozen_mutations exC6frozen rb_hash_new (vint 1) (vint 2)
    (fun _ _ => true) none none rfl).1⟩

def exMergeH1 : RHash := buildHash [(vstr "a", vint 1), (vstr "b", vint 2)]

def exMergeH2 : RHash := buildHash [(vstr "b", vint 3), (vstr "c", vint 4)]

def keepOld : RVal → RVal → RVal → RVal := fun _ old _ => old

/-- Claim C7: merge! folds the live entries of the other hash, in their
order, through the spec merge step (resolver on present keys, plain
store on absent ones) and raises nothing on an unfrozen receiver; the
non-destructive merge does the same on a duplicate, succeeding for every
receiver (frozen ones included, since the receiver itself is never
touched); the keep-old example of P5 comes out as a:1, b:2, c:4 in that
order. -/
theorem C7_merge_resolution (f : Option (RVal → RVal → RVal → RVal)) (h1 h2 : RHash)
    (hfr : h1.frozen = false) :
    (rb_hash_update f h1 h2).h1 = (liveEntries h2.tbl).foldl (mergeStepSpec f) h1
    ∧ (rb_hash_update f h1 h2).err = none
    ∧ (rb_hash_merge f h1 h2).h1 =
        (liveEntries h2.tbl).foldl (mergeStepSpec f) (rb_hash_dup h1)
    ∧ (∀ hz : RHash, (rb_hash_merge f hz h2).err = none)
    ∧ liveEntries ((rb_hash_merge (some keepOld) exMergeH1 exMergeH2).h1.tbl) =
        [(vstr "a", vint 1), (vstr "b", vint 2), (vstr "c", vint 4)]
    ∧ (rb_hash_merge (some keepOld) exMergeH1 exMergeH2).err = none := by
  refine ⟨(rb_hash_update_ok f h1 h2 hfr).1, (rb_hash_update_ok f h1 h2 hfr).2,
    ?_, ?_, by decide, by decide⟩
  · exact (rb_hash_update_ok f (rb_hash_dup h1) h2 rfl).1
  · intro hz
    exact (rb_hash_update_ok f (rb_hash_dup hz) h2 rfl).2

theorem C7_merge_resolution_witness :
    exMergeH1.frozen = false
    ∧ liveEntries ((rb_hash_merge (some keepOld) exMergeH1 exMergeH2).h1.tbl) =
        [(vstr "a", vint 1), (vstr "b", vint 2), (vstr "c", vint 4)] :=
  ⟨rfl, (C7_merge_resolution (some keepOld) exMergeH1 exMergeH2 rfl).2.2.2.2.1⟩

/-- Claim C1 (amended to a key present in the map): while a traversal is
active, deleting a live key does not physically mutate the table (same
object, same slot count): the slot is tombstoned in place and
HASH_DELETED is set, the stored value is returned, the traversal
enumerates exactly the remaining live keys in order, the compaction runs
exactly when the outermost traversal exits (the ensure hook at depth 1
cleans up and clears the flag, at greater depth it touches nothing), and
a whole traversal entered at depth 0 — on every exit path, aborting ones
included — comes back at depth 0 with the flag clear and no tombstone
left, which is invariant I2. -/
theorem C1_delete_during_traversal {A : Type} (cb : Callback A)
    (h h0 : RHash) (k v : RVal) (a0 : A)
    (hlev : 0 < h.iter_lev)
    (hfound : st_lookup h.tbl k = some v)
    (hcb : ∀ k2 v2 hh aa, ((cb k2 v2 hh aa).h.iter_lev = hh.iter_lev ∧
      (hashInv hh → hashInv (cb k2 v2 hh aa).h)))
    (hlev0 : h0.iter_lev = 0) (hinv0 : hashInv h0) :
    (rb_hash_delete_key h k).2 = some v
    ∧ (rb_hash_delete_key h k).1.tbl.gen = h.tbl.gen
    ∧ (rb_hash_delete_key h k).1.tbl.entries.length = h.tbl.entries.length
    ∧ liveKeys (rb_hash_delete_key h k).1.tbl = (liveKeys h.tbl).erase k
    ∧ (rb_hash_delete_key h k).1.deleted = true
    ∧ (rb_hash_foreach keys_i (rb_hash_delete_key h k).1 []).a = (liveKeys h.tbl).erase k
    ∧ (h.iter_lev = 1 →
        (hash_foreach_ensure (rb_hash_delete_key h k).1).iter_lev = 0
        ∧ (hash_foreach_ensure (rb_hash_delete_key h k).1).deleted = false
        ∧ noTombB (hash_foreach_ensure (rb_hash_delete_key h k).1).tbl = true
        ∧ liveEntries (hash_foreach_ensure (rb_hash_delete_key h k).1).tbl
            = liveEntries (rb_hash_delete_key h k).1.tbl)
    ∧ (2 ≤ h.iter_lev →
        (hash_foreach_ensure (rb_hash_delete_key h k).1).tbl = (rb_hash_delete_key h k).1.tbl
        ∧ (hash_foreach_ensure (rb_hash_delete_key h k).1).deleted = true)
    ∧ ((rb_hash_foreach cb h0 a0).h.iter_lev = 0
        ∧ (rb_hash_foreach cb h0 a0).h.deleted = false
        ∧ noTombB (rb_hash_foreach cb h0 a0).h.tbl = true) := by
  obtain ⟨e0, hfind, he2⟩ := Option.map_eq_some'.1 hfound
  have hds : st_delete_safe h.tbl k =
      (some v, ⟨tombstoneFirst h.tbl.entries k, h.tbl.gen⟩) := by
    simp [st_delete_safe, hfind, he2]
  have hdk : rb_hash_delete_key h k =
      ({ h with tbl := ⟨tombstoneFirst h.tbl.entries k, h.tbl.gen⟩, deleted := true },
        some v) := by
    simp [rb_hash_delete_key, hlev, hds]
  have hd1 : (rb_hash_delete_key h k).1 =
      { h with tbl := ⟨tombstoneFirst h.tbl.entries k, h.tbl.gen⟩, deleted := true } := by
    rw [hdk]
  have hlive : liveKeys (rb_hash_delete_key h k).1.tbl = (liveKeys h.tbl).erase k := by
    rw [hd1]
    show (liveList (tombstoneFirst h.tbl.entries k)).map Prod.fst =
      ((liveList h.tbl.entries).map Prod.fst).erase k
    exact liveKeys_tombstoneFirst h.tbl.entries k
  refine ⟨by rw [hdk], by rw [hd1], ?_, hlive, by rw [hd1], ?_, ?_, ?_, ?_⟩
  · rw [hd1]
    exact tombstoneFirst_length h.tbl.entries k
  · rw [rb_hash_foreach_keys_spec]
    simpa using hlive
  · intro hl1
    rw [hd1]
    refine ⟨?_, ?_, ?_, ?_⟩ <;>
      simp [hash_foreach_ensure, hl1, noTombB_cleanup, liveEntries_cleanup]
  · intro hl2
    rw [hd1]
    have hne : ¬(h.iter_lev - 1 = 0) := by omega
    constructor <;> simp [hash_foreach_ensure, hne]
  · have h1lev : ({ h0 with iter_lev := h0.iter_lev + 1 } : RHash).iter_lev = 1 := by
      simp [hlev0]
    obtain ⟨hrl, hri⟩ := foreachLoop_lev_inv cb 1 hcb
      ({ h0 with iter_lev := h0.iter_lev + 1 }).tbl.entries.length
      { h0 with iter_lev := h0.iter_lev + 1 } a0 0 h1lev hinv0
    simp only [rb_hash_foreach]
    exact ensure_toplevel _ hrl hri

def exC1tbl : StTable := { entries := [(some (vstr "a"), vint 1)], gen := 0 }

def exC1absent : RHash := { rb_hash_new with tbl := exC1tbl, iter_lev := 1 }

/-- Claim C1, counterexample to the claim as frozen ("every key not
present in it"): deleting a key that is absent while a traversal is
active tombstones nothing — the hash is returned untouched, HASH_DELETED
stays clear and Qundef is reported — so no entry enters the pending
deletion set, contradicting the claimed tombstoning. -/
theorem C1_not_present_counterexample :
    0 < exC1absent.iter_lev
    ∧ st_lookup exC1absent.tbl (vstr "b") = none
    ∧ rb_hash_delete_key exC1absent (vstr "b") = (exC1absent, none)
    ∧ (rb_hash_delete_key exC1absent (vstr "b")).1.deleted = false := by
  refine ⟨?_, ?_, ?_, ?_⟩ <;> decide

def exC1tbl2 : StTable :=
  { entries := [(some (vstr "a"), vint 1), (some (vstr "b"), vint 2)], gen := 0 }

def exC1hash : RHash := { rb_hash_new with tbl := exC1tbl2, iter_lev := 1 }

theorem C1_delete_during_traversal_witness :
    0 < exC1hash.iter_lev
    ∧ st_lookup exC1hash.tbl (vstr "b") = some (vint 2)
    ∧ (rb_hash_delete_key exC1hash (vstr "b")).1.deleted = true :=
  ⟨by decide, by decide,
    (C1_delete_during_traversal keys_i exC1hash rb_hash_new (vstr "b") (vint 2) []
      (by decide) (by decide) (fun k2 v2 hh aa => ⟨rfl, fun hx => hx⟩) rfl
      (fun _ => rfl)).2.2.2.2.1⟩
